import Mathlib

/-!
Verification of `src/fn_overlap.py` (function `overlap`).

The function resolves, for each parcel, a single zoning label:
* group the precomputed spatial-join table `joined_gdf` by parcel identifier
  and count distinct non-null zoning labels (`nunique(dropna=True)`);
* parcels with exactly one distinct label are passed through (`single_map`);
* parcels with more than one distinct label are re-intersected against the
  whole zoning layer (`gpd.overlay(..., how="intersection",
  keep_geom_type=False)`), areas are measured in an estimated projected CRS,
  non-positive areas are dropped, and per parcel the record of maximum area
  (`idxmax`, first occurrence on ties) supplies the label (`multi_map`);
* the two maps are concatenated and collapsed with `groupby(level=0).last()`
  (last non-null value per key, so `multi_map` overrides `single_map`), and
  the result is left-merged onto the parcel table.

The embedding below represents each GeoDataFrame as a list of typed rows
plus one boolean per required column recording whether that column is
present; a missing column makes the corresponding pandas access raise
`KeyError`, which the embedding reproduces at the same program points and
in the same order as the Python code.  Geometry is abstracted by a
`GeomEngine`: an intersection operation, an emptiness test (pairs with
empty intersection are the ones `gpd.overlay` omits; `keep_geom_type=False`
keeps the degenerate lower-dimensional ones), a projected-area measure
`area c g` (the area of `g` after `to_crs c`), and `estimate_utm_crs` as a
function of the parcel geometries.  Null values of the zoning column are
`Option.none`; parcel identifiers are taken non-null (pandas drops null
group keys, a case the claims do not exercise).  `groupby` emits its groups
in sorted key order in pandas; the embedding uses first-appearance order of
the deduplicated keys instead, which is observationally irrelevant here
because both `multi_map` and the collapsed `final_map` carry unique keys
and are only consumed by keyed lookup (the single/multi precedence depends
only on every `multi_map` entry following every `single_map` entry in the
concatenation, which the embedding preserves).
-/

set_option maxHeartbeats 1000000
set_option linter.unusedVariables false

namespace FnOverlap

/-- Values of the parcel-identifier column (default column name "APN"). -/
abbrev APN := String

/-- Values of the zoning-label column (default column name "ZONING"). -/
abbrev ZoneLabel := String

/-- An identifier for a coordinate reference system. -/
abbrev CRS := Nat

/-- Abstract geometry engine over a geometry type `G`: polygon intersection,
emptiness (the pairs `gpd.overlay` drops), projected area (`area c g` is the
area of `g` measured after reprojection `to_crs c`), and
`estimate_utm_crs` as a function of the parcel geometries. -/
structure GeomEngine (G : Type) where
  inter : G → G → G
  isEmpty : G → Bool
  area : CRS → G → ℚ
  estimateUtmCrs : List G → Option CRS

/-- A row of the `parcels` GeoDataFrame: identifier and geometry. -/
structure ParcelRow (G : Type) where
  apn : APN
  geom : G
  deriving DecidableEq, Repr

/-- A row of the `zones` GeoDataFrame: zoning label (nullable) and geometry. -/
structure ZoneRow (G : Type) where
  zoning : Option ZoneLabel
  geom : G
  deriving DecidableEq, Repr

/-- A row of `joined_gdf`: parcel identifier and zoning label.  The join
table also carries an intersection geometry column, but `overlap` never
reads it, so rows need not carry it (its presence flag is still tracked
in `JoinedDF`). -/
structure JoinRow where
  apn : APN
  zoning : Option ZoneLabel
  deriving DecidableEq, Repr

/-- The `parcels` input: presence flags for its required columns, plus rows. -/
structure ParcelsDF (G : Type) where
  hasApn : Bool
  hasGeometry : Bool
  rows : List (ParcelRow G)

/-- The `zones` input: presence flags for its required columns, plus rows. -/
structure ZonesDF (G : Type) where
  hasZoning : Bool
  hasGeometry : Bool
  rows : List (ZoneRow G)

/-- The `joined_gdf` input: presence flags for its three documented columns,
plus rows.  The geometry column of the join table is never accessed by
`overlap`, so `hasGeometry` is tracked but (faithfully) never read. -/
structure JoinedDF where
  hasApn : Bool
  hasZoning : Bool
  hasGeometry : Bool
  rows : List JoinRow

/-- Errors `overlap` can raise: pandas `KeyError` on a missing column
(which names the column but not which input it was missing from), and the
explicit `ValueError` of line 51. -/
inductive PyError where
  | keyError (col : String)
  | valueError (msg : String)
  deriving DecidableEq, Repr

/-- Line 27, `joined_gdf.groupby(apn)[zone].nunique(dropna=True)`, evaluated
at one key `a`: the number of distinct non-null zoning labels among the join
rows whose identifier is `a`. -/
def nuniqueZones (joined : List JoinRow) (a : APN) : Nat :=
  (((joined.filter (fun r => r.apn == a)).filterMap (fun r => r.zoning)).dedup).length

/-- Line 28, `single_ids`: group keys of `joined_gdf` whose distinct
zoning-label count is exactly 1. -/
def singleIds (joined : List JoinRow) : List APN :=
  ((joined.map (fun r => r.apn)).dedup).filter (fun a => nuniqueZones joined a == 1)

/-- Line 34, `dup_ids`: group keys of `joined_gdf` whose distinct
zoning-label count exceeds 1. -/
def dupIds (joined : List JoinRow) : List APN :=
  ((joined.map (fun r => r.apn)).dedup).filter (fun a => decide (1 < nuniqueZones joined a))

/-- Line 30, `single_map`: the join rows whose identifier is in `single_ids`,
indexed by identifier, restricted to the zoning column.  Rows with a null
zoning value are kept (the `isin` filter looks only at the identifier). -/
def singleMap (joined : List JoinRow) : List (APN × Option ZoneLabel) :=
  (joined.filter (fun r => (singleIds joined).contains r.apn)).map (fun r => (r.apn, r.zoning))

/-- A row of the overlay result: parcel identifier, zoning label of the zone
row, and the intersection geometry. -/
structure OvrRow (G : Type) where
  apn : APN
  zoning : Option ZoneLabel
  geom : G
  deriving DecidableEq, Repr

/-- Lines 41-46, `gpd.overlay(dup_parcels, zones[[zone, "geometry"]],
how="intersection", keep_geom_type=False)`: one record per pair of a
dup-parcel row and a zone row whose geometries have non-empty intersection,
carrying the attributes of both sides and the intersection geometry.
`keep_geom_type=False` retains degenerate (point/line) intersections, so
emptiness is the only dropping criterion. -/
def overlayRows {G : Type} (E : GeomEngine G) (dupParcels : List (ParcelRow G))
    (zonesRows : List (ZoneRow G)) : List (OvrRow G) :=
  dupParcels.flatMap (fun p =>
    zonesRows.filterMap (fun z =>
      if E.isEmpty (E.inter p.geom z.geom) then none
      else some ⟨p.apn, z.zoning, E.inter p.geom z.geom⟩))

/-- A row of `ovr_area` after line 55: the overlay attributes together with
the computed `overlap_area` column. -/
structure AreaRow where
  apn : APN
  zoning : Option ZoneLabel
  overlap_area : ℚ
  deriving DecidableEq, Repr

/-- Lines 52-55: reproject the overlay to the area CRS and compute the
`overlap_area` column (`ovr_area.geometry.area`). -/
def ovrArea {G : Type} (E : GeomEngine G) (c : CRS) (rows : List (OvrRow G)) : List AreaRow :=
  rows.map (fun r => ⟨r.apn, r.zoning, E.area c r.geom⟩)

/-- Line 56, `poly_area`: keep only records with strictly positive area. -/
def polyArea (rows : List AreaRow) : List AreaRow :=
  rows.filter (fun r => decide (0 < r.overlap_area))

/-- The group of `poly_area` records for one parcel identifier, in frame
order (pandas `groupby` preserves the original order inside each group). -/
def groupRows (rows : List AreaRow) (a : APN) : List AreaRow :=
  rows.filter (fun r => r.apn == a)

/-- Pandas `idxmax` on one group: the first record (in group order) whose
area is maximal, i.e. the first record whose area is greater than or equal
to every area in the group. -/
def idxmaxRow (rows : List AreaRow) : Option AreaRow :=
  rows.find? (fun r => rows.all (fun s => decide (s.overlap_area ≤ r.overlap_area)))

/-- Lines 61-64, `multi_map`: for each parcel identifier occurring in
`poly_area`, the zoning label of the `idxmax` record of its group. -/
def multiMap (pa : List AreaRow) : List (APN × Option ZoneLabel) :=
  ((pa.map (fun r => r.apn)).dedup).filterMap (fun a =>
    (idxmaxRow (groupRows pa a)).map (fun r => (a, r.zoning)))

/-- Pandas `SeriesGroupBy.last()` on one group's values: the last non-null
value, or null when every value of the group is null. -/
def lastNonNull (vals : List (Option ZoneLabel)) : Option ZoneLabel :=
  (vals.filterMap id).getLast?

/-- Lines 68-71, `final_map`: concatenate `single_map` and `multi_map` and
collapse by key with `.groupby(level=0).last()`; since all `multi_map`
entries follow all `single_map` entries, `multi_map` overrides on keys
present in both. -/
def finalMap (s m : List (APN × Option ZoneLabel)) : List (APN × Option ZoneLabel) :=
  (((s ++ m).map Prod.fst).dedup).map (fun a =>
    (a, lastNonNull (((s ++ m).filter (fun q => q.1 == a)).map Prod.snd)))

/-- The value a left merge against `fm` associates to key `a`: the value of
the first entry of `fm` with key `a`, null when there is none. -/
def lookupVal (fm : List (APN × Option ZoneLabel)) (a : APN) : Option ZoneLabel :=
  match fm.find? (fun q => q.1 == a) with
  | some q => q.2
  | none => none

/-- Line 73, `parcels.merge(final_map, left_on=apn, right_index=True,
how="left")`: every parcel row is kept in order; a row with no matching key
gets a null value; a row with matching keys is repeated once per match
(row expansion can only happen if `fm` had duplicate keys). -/
def mergeLeft {G : Type} (ps : List (ParcelRow G)) (fm : List (APN × Option ZoneLabel)) :
    List (ParcelRow G × Option ZoneLabel) :=
  ps.flatMap (fun p =>
    match fm.filter (fun q => q.1 == p.apn) with
    | [] => [(p, none)]
    | ms => ms.map (fun q => (p, q.2)))

/-- Line 39, `dup_parcels`: the parcel rows whose identifier is in `dup_ids`. -/
def dupParcelsOf {G : Type} (parcels : List (ParcelRow G)) (joined : List JoinRow) :
    List (ParcelRow G) :=
  parcels.filter (fun p => (dupIds joined).contains p.apn)

/-- The `poly_area` frame produced by lines 41-56 for a given area CRS `c`. -/
def polyAreaOf {G : Type} (E : GeomEngine G) (c : CRS) (parcels : List (ParcelRow G))
    (joined : List JoinRow) (zonesRows : List (ZoneRow G)) : List AreaRow :=
  polyArea (ovrArea E c (overlayRows E (dupParcelsOf parcels joined) zonesRows))

/-- Lines 34-64: the computation of `multi_map`, including the pandas
`KeyError`s raised at lines 39 and 43 when a required column is absent
(`parcels[apn]` and the `[apn, "geometry"]` selection at line 39, the
`zones[[zone, "geometry"]]` selection at line 43) and the explicit
`ValueError` of lines 50-51.  When `dup_ids` is empty none of these columns
is touched and `multi_map` stays the empty series of line 35. -/
def multiStep {G : Type} (E : GeomEngine G) (parcels : ParcelsDF G) (zones : ZonesDF G)
    (joined : JoinedDF) (apnCol zoneCol : String) :
    Except PyError (List (APN × Option ZoneLabel)) :=
  if (dupIds joined.rows).isEmpty then .ok []
  else if parcels.hasApn = false then .error (.keyError apnCol)
  else if parcels.hasGeometry = false then .error (.keyError "geometry")
  else if zones.hasZoning = false then .error (.keyError zoneCol)
  else if zones.hasGeometry = false then .error (.keyError "geometry")
  else
    match E.estimateUtmCrs (parcels.rows.map (fun p => p.geom)) with
    | none => .error (.valueError "Could not estimate a projected CRS for area calculations.")
    | some c =>
      .ok (if (polyAreaOf E c parcels.rows joined.rows zones.rows).isEmpty then []
           else multiMap (polyAreaOf E c parcels.rows joined.rows zones.rows))

/-- The function `overlap` of `src/fn_overlap.py`.  The output models the
returned frame as the parcel rows paired with the appended final-label
column; `zoneOutCol` only names that appended column (`rename(zone_out)` at
line 71), which the pair representation carries positionally, so the
parameter does not influence the result.  Column accesses are checked in
the order the Python code performs them: line 27 reads the identifier and
zoning columns of `joined_gdf` (pandas raises `KeyError` for the `groupby`
key before the column selection), lines 39-52 run only when `dup_ids` is
non-empty, and line 73 reads the identifier column of `parcels`. -/
def overlap {G : Type} (E : GeomEngine G) (parcels : ParcelsDF G) (zones : ZonesDF G)
    (joined : JoinedDF) (apnCol : String := "APN") (zoneCol : String := "ZONING")
    (zoneOutCol : String := "ZONING_final") :
    Except PyError (List (ParcelRow G × Option ZoneLabel)) :=
  if joined.hasApn = false then .error (.keyError apnCol)
  else if joined.hasZoning = false then .error (.keyError zoneCol)
  else
    match multiStep E parcels zones joined apnCol zoneCol with
    | .error e => .error e
    | .ok mM =>
      if parcels.hasApn = false then .error (.keyError apnCol)
      else .ok (mergeLeft parcels.rows (finalMap (singleMap joined.rows) mM))

/-- Decidable equality for `Except`, so that concrete runs of `overlap` can
be checked by `decide`. -/
instance {ε α : Type} [DecidableEq ε] [DecidableEq α] : DecidableEq (Except ε α) := fun x y =>
  match x, y with
  | .ok a, .ok b =>
    if h : a = b then isTrue (by rw [h]) else isFalse (by intro he; cases he; exact h rfl)
  | .error a, .error b =>
    if h : a = b then isTrue (by rw [h]) else isFalse (by intro he; cases he; exact h rfl)
  | .ok a, .error b => isFalse (by intro h; cases h)
  | .error a, .ok b => isFalse (by intro h; cases h)

/-!
### Concrete fixtures

Small concrete inputs over `G := Nat` (geometry identifiers) used by the
counterexamples and by the witnesses of the theorems below.  `tEngine`
codes the intersection of geometries `g` and `h` as `10 * g + h` and reads
projected areas off a table.
-/

/-- Geometry engine over `Nat` geometry identifiers with area table `ar`
and constant CRS estimate `crs`. -/
def tEngine (ar : Nat → ℚ) (crs : Option CRS) : GeomEngine Nat :=
  { inter := fun g h => 10 * g + h
    isEmpty := fun _ => false
    area := fun _ g => ar g
    estimateUtmCrs := fun _ => crs }

/-- Engine for the overlay scenario: intersections of parcel geometry 0
with zone geometries 1, 2, 3 have areas 2, 1 and 5. -/
def Ecex : GeomEngine Nat :=
  tEngine (fun g => if g = 1 then 2 else if g = 2 then 1 else if g = 3 then 5 else 0) (some 0)

/-- Engine with all areas 1 and a successful CRS estimate. -/
def Eone : GeomEngine Nat := tEngine (fun _ => 1) (some 0)

/-- Engine whose CRS estimation fails. -/
def Enone : GeomEngine Nat := tEngine (fun _ => 1) none

/-- Engine realising an exact area tie between zone geometries 1 and 2. -/
def Etie : GeomEngine Nat :=
  tEngine (fun g => if g = 1 then 4 else if g = 2 then 4 else 0) (some 0)

/-- Engine where zone geometry 1 dominates: areas 3, 1. -/
def EdomA : GeomEngine Nat :=
  tEngine (fun g => if g = 1 then 3 else if g = 2 then 1 else 0) (some 0)

/-- Engine where zone geometry 2 dominates: areas 1, 3. -/
def EdomB : GeomEngine Nat :=
  tEngine (fun g => if g = 1 then 1 else if g = 2 then 3 else 0) (some 0)

/-- One parcel "X" with geometry 0. -/
def Pcex : ParcelsDF Nat := ⟨true, true, [⟨"X", 0⟩]⟩

/-- Three zones A, B, C with geometries 1, 2, 3. -/
def Zcex : ZonesDF Nat := ⟨true, true, [⟨some "A", 1⟩, ⟨some "B", 2⟩, ⟨some "C", 3⟩]⟩

/-- Two zones A, B with geometries 1, 2. -/
def Zab : ZonesDF Nat := ⟨true, true, [⟨some "A", 1⟩, ⟨some "B", 2⟩]⟩

/-- Join table making parcel "X" ambiguous between labels "A" and "B". -/
def Jcex : JoinedDF := ⟨true, true, true, [⟨"X", some "A"⟩, ⟨"X", some "B"⟩]⟩

/-- Two parcels: "P1" (with join rows) and "P9" (without any). -/
def Psing : ParcelsDF Nat := ⟨true, true, [⟨"P1", 0⟩, ⟨"P9", 7⟩]⟩

/-- Join table where "P1" has two rows sharing the single label "A". -/
def Jsing : JoinedDF := ⟨true, true, true, [⟨"P1", some "A"⟩, ⟨"P1", some "A"⟩]⟩

/-- A zones input missing its zoning-label column. -/
def ZnoZoning : ZonesDF Nat := ⟨false, true, [⟨some "A", 1⟩]⟩

/-- A join input missing its identifier column. -/
def JnoApn : JoinedDF := ⟨false, true, true, []⟩

/-- A parcels input missing its identifier column. -/
def PnoApn : ParcelsDF Nat := ⟨false, true, []⟩

/-!
### General list lemmas
-/

theorem getLast?_mem {α : Type} {l : List α} {a : α} (h : l.getLast? = some a) : a ∈ l := by
  induction l with
  | nil => simp at h
  | cons x xs ih =>
    cases xs with
    | nil =>
      simp at h
      simp [h]
    | cons y ys =>
      rw [List.getLast?_cons_cons] at h
      exact List.mem_cons_of_mem _ (ih h)

theorem getLast?_all_eq {α : Type} {l : List α} {z : α} (hne : l ≠ [])
    (hall : ∀ x ∈ l, x = z) : l.getLast? = some z := by
  induction l with
  | nil => cases hne rfl
  | cons x xs ih =>
    cases xs with
    | nil => simp [hall x (by simp)]
    | cons y ys =>
      rw [List.getLast?_cons_cons]
      exact ih (by simp) (fun t ht => hall t (List.mem_cons_of_mem _ ht))

theorem find?_append_first {α : Type} {p : α → Bool} {pre post : List α} {r : α}
    (hpre : ∀ s ∈ pre, p s = false) (hr : p r = true) :
    (pre ++ r :: post).find? p = some r := by
  induction pre with
  | nil => exact List.find?_cons_of_pos _ hr
  | cons x xs ih =>
    rw [List.cons_append, List.find?_cons_of_neg _ (by simp [hpre x (by simp)])]
    exact ih (fun s hs => hpre s (by simp [hs]))

/-!
### Keyed-list lemmas: filtering and lookup by identifier
-/

theorem filter_key_eq_nil {fm : List (APN × Option ZoneLabel)} {a : APN}
    (h : a ∉ fm.map Prod.fst) : fm.filter (fun q => q.1 == a) = [] := by
  induction fm with
  | nil => rfl
  | cons q fm ih =>
    simp only [List.map_cons, List.mem_cons, not_or] at h
    rw [List.filter_cons, if_neg (by simp only [beq_iff_eq]; exact fun he => h.1 he.symm)]
    exact ih h.2

theorem filter_key_toList {fm : List (APN × Option ZoneLabel)} {a : APN}
    (h : (fm.map Prod.fst).Nodup) :
    fm.filter (fun q => q.1 == a) = (fm.find? (fun q => q.1 == a)).toList := by
  induction fm with
  | nil => rfl
  | cons q fm ih =>
    rw [List.map_cons] at h
    have hnd := List.nodup_cons.mp h
    by_cases hq : q.1 = a
    · have hnot : a ∉ fm.map Prod.fst := by rw [← hq]; exact hnd.1
      rw [List.filter_cons, if_pos (by simp [hq]), List.find?_cons_of_pos _ (by simp [hq]),
        filter_key_eq_nil hnot]
      rfl
    · rw [List.filter_cons, if_neg (by simp [hq]), List.find?_cons_of_neg _ (by simp [hq])]
      exact ih hnd.2

theorem mergeLeft_eq_map {G : Type} {ps : List (ParcelRow G)}
    {fm : List (APN × Option ZoneLabel)} (h : (fm.map Prod.fst).Nodup) :
    mergeLeft ps fm = ps.map (fun p => (p, lookupVal fm p.apn)) := by
  induction ps with
  | nil => rfl
  | cons p ps ih =>
    simp only [mergeLeft, List.flatMap_cons] at ih ⊢
    rw [ih, filter_key_toList h]
    unfold lookupVal
    cases hf : fm.find? (fun q => q.1 == p.apn) with
    | none => simp only [List.map_cons]; rw [hf]; rfl
    | some q => simp only [List.map_cons]; rw [hf]; rfl

theorem mergeLeft_fst {G : Type} {ps : List (ParcelRow G)}
    {fm : List (APN × Option ZoneLabel)} (h : (fm.map Prod.fst).Nodup) :
    (mergeLeft ps fm).map Prod.fst = ps := by
  rw [mergeLeft_eq_map h, List.map_map]
  simp only [Function.comp_def]
  exact List.map_id' _

theorem mergeLeft_mem {G : Type} {ps : List (ParcelRow G)}
    {fm : List (APN × Option ZoneLabel)} {q : ParcelRow G × Option ZoneLabel}
    (h : (fm.map Prod.fst).Nodup) (hq : q ∈ mergeLeft ps fm) :
    q.1 ∈ ps ∧ q.2 = lookupVal fm q.1.apn := by
  rw [mergeLeft_eq_map h] at hq
  rcases List.mem_map.mp hq with ⟨p, hp, rfl⟩
  exact ⟨hp, rfl⟩

theorem find?_map_pairs (keys : List APN) (val : APN → Option ZoneLabel) (a : APN)
    (h : a ∈ keys) :
    (keys.map (fun k => (k, val k))).find? (fun q => q.1 == a) = some (a, val a) := by
  induction keys with
  | nil => cases h
  | cons k ks ih =>
    by_cases hk : k = a
    · subst hk
      rw [List.map_cons, List.find?_cons_of_pos _ (by simp)]
    · rw [List.map_cons, List.find?_cons_of_neg _ (by simp [hk])]
      rcases List.mem_cons.mp h with rfl | h2
      · cases hk rfl
      · exact ih h2

theorem find?_map_pairs_none (keys : List APN) (val : APN → Option ZoneLabel) (a : APN)
    (h : a ∉ keys) :
    (keys.map (fun k => (k, val k))).find? (fun q => q.1 == a) = none := by
  rw [List.find?_eq_none]
  intro x hx
  rcases List.mem_map.mp hx with ⟨k, hk, rfl⟩
  simp only [beq_iff_eq]
  intro hka
  exact h (hka ▸ hk)

theorem finalMap_keys {s m : List (APN × Option ZoneLabel)} :
    (finalMap s m).map Prod.fst = ((s ++ m).map Prod.fst).dedup := by
  unfold finalMap
  rw [List.map_map]
  simp only [Function.comp_def]
  exact List.map_id' _

theorem finalMap_keys_nodup {s m : List (APN × Option ZoneLabel)} :
    ((finalMap s m).map Prod.fst).Nodup := by
  rw [finalMap_keys]
  exact List.nodup_dedup _

theorem lookupVal_finalMap {s m : List (APN × Option ZoneLabel)} {a : APN} :
    lookupVal (finalMap s m) a =
      lastNonNull (((s ++ m).filter (fun q => q.1 == a)).map Prod.snd) := by
  unfold finalMap lookupVal
  by_cases h : a ∈ ((s ++ m).map Prod.fst).dedup
  · rw [find?_map_pairs _ _ _ h]
  · rw [find?_map_pairs_none _ _ _ h]
    rw [List.mem_dedup] at h
    rw [filter_key_eq_nil h]
    rfl

/-!
### Lemmas about the identifier partition (`single_ids` / `dup_ids`)
-/

theorem mem_apns_of_nunique_pos {j : List JoinRow} {a : APN} (h : 0 < nuniqueZones j a) :
    a ∈ j.map (fun r => r.apn) := by
  unfold nuniqueZones at h
  rw [List.length_pos] at h
  rcases List.exists_mem_of_ne_nil _ h with ⟨z, hz⟩
  rw [List.mem_dedup] at hz
  rcases List.mem_filterMap.mp hz with ⟨r, hr, hrz⟩
  rcases List.mem_filter.mp hr with ⟨hrj, hra⟩
  exact List.mem_map.mpr ⟨r, hrj, by simpa using hra⟩

theorem mem_singleIds {j : List JoinRow} {a : APN} :
    a ∈ singleIds j ↔ nuniqueZones j a = 1 := by
  unfold singleIds
  rw [List.mem_filter]
  constructor
  · rintro ⟨-, h⟩
    simpa using h
  · intro h
    exact ⟨List.mem_dedup.mpr (mem_apns_of_nunique_pos (by omega)), by simpa using h⟩

theorem mem_dupIds {j : List JoinRow} {a : APN} :
    a ∈ dupIds j ↔ 1 < nuniqueZones j a := by
  unfold dupIds
  rw [List.mem_filter]
  constructor
  · rintro ⟨-, h⟩
    simpa using h
  · intro h
    exact ⟨List.mem_dedup.mpr (mem_apns_of_nunique_pos (by omega)), by simpa using h⟩

/-!
### Lemmas about `single_map`
-/

theorem singleMap_filter_of_single {j : List JoinRow} {a : APN} (h1 : nuniqueZones j a = 1) :
    (singleMap j).filter (fun q => q.1 == a) =
      (j.filter (fun r => r.apn == a)).map (fun r => (r.apn, r.zoning)) := by
  unfold singleMap
  rw [List.filter_map, List.filter_filter]
  congr 1
  apply List.filter_congr
  intro r hr
  by_cases hra : r.apn = a
  · have : a ∈ singleIds j := mem_singleIds.mpr h1
    simp [Function.comp, hra, this]
  · simp [Function.comp, hra]

theorem singleMap_filter_of_not_single {j : List JoinRow} {a : APN}
    (h1 : nuniqueZones j a ≠ 1) :
    (singleMap j).filter (fun q => q.1 == a) = [] := by
  unfold singleMap
  rw [List.filter_map, List.filter_filter]
  have hnil : List.filter (fun r => ((fun q : APN × Option ZoneLabel => q.1 == a) ∘
      (fun r : JoinRow => (r.apn, r.zoning))) r && (singleIds j).contains r.apn) j = [] := by
    rw [List.filter_eq_nil_iff]
    intro r hr
    by_cases hra : r.apn = a
    · have : a ∉ singleIds j := fun hmem => h1 (mem_singleIds.mp hmem)
      simp [Function.comp, hra, this]
    · simp [Function.comp, hra]
  rw [hnil]
  rfl

theorem singleMap_filter_of_no_rows {j : List JoinRow} {a : APN}
    (h : ∀ r ∈ j, r.apn ≠ a) :
    (singleMap j).filter (fun q => q.1 == a) = [] := by
  apply filter_key_eq_nil
  intro hmem
  rcases List.mem_map.mp hmem with ⟨q, hq, hq1⟩
  unfold singleMap at hq
  rcases List.mem_map.mp hq with ⟨r, hr, rfl⟩
  exact h r (List.mem_filter.mp hr).1 hq1

/-!
### Lemmas about `idxmax` and `multi_map`
-/

theorem exists_max_areaRow {rows : List AreaRow} (h : rows ≠ []) :
    ∃ r ∈ rows, ∀ s ∈ rows, s.overlap_area ≤ r.overlap_area := by
  induction rows with
  | nil => cases h rfl
  | cons x xs ih =>
    cases xs with
    | nil => exact ⟨x, by simp, by simp⟩
    | cons y ys =>
      rcases ih (by simp) with ⟨r, hr, hmax⟩
      by_cases hxr : x.overlap_area ≤ r.overlap_area
      · refine ⟨r, List.mem_cons_of_mem _ hr, ?_⟩
        intro s hs
        rcases List.mem_cons.mp hs with rfl | hs
        · exact hxr
        · exact hmax s hs
      · push_neg at hxr
        refine ⟨x, List.mem_cons_self _ _, ?_⟩
        intro s hs
        rcases List.mem_cons.mp hs with rfl | hs
        · exact le_refl _
        · exact (hmax s hs).trans hxr.le

theorem idxmaxRow_eq_some {rows : List AreaRow} (h : rows ≠ []) :
    ∃ r, idxmaxRow rows = some r := by
  rcases exists_max_areaRow h with ⟨r, hr, hmax⟩
  have hsome : (rows.find? (fun r => rows.all fun s =>
      decide (s.overlap_area ≤ r.overlap_area))).isSome = true := by
    rw [List.find?_isSome]
    refine ⟨r, hr, ?_⟩
    rw [List.all_eq_true]
    intro s hs
    simpa using hmax s hs
  rcases Option.isSome_iff_exists.mp hsome with ⟨r2, hr2⟩
  exact ⟨r2, hr2⟩

theorem idxmaxRow_spec {rows : List AreaRow} {r : AreaRow} (h : idxmaxRow rows = some r) :
    r ∈ rows ∧ ∀ s ∈ rows, s.overlap_area ≤ r.overlap_area := by
  refine ⟨List.mem_of_find?_eq_some h, ?_⟩
  have hall := List.find?_some h
  rw [List.all_eq_true] at hall
  intro s hs
  simpa using hall s hs

theorem idxmaxRow_first {pre post : List AreaRow} {r : AreaRow}
    (hpre : ∀ s ∈ pre, s.overlap_area < r.overlap_area)
    (hmax : ∀ s ∈ pre ++ r :: post, s.overlap_area ≤ r.overlap_area) :
    idxmaxRow (pre ++ r :: post) = some r := by
  unfold idxmaxRow
  apply find?_append_first
  · intro s hs
    rw [← Bool.not_eq_true, List.all_eq_true]
    push_neg
    refine ⟨r, by simp, ?_⟩
    simpa using hpre s hs
  · rw [List.all_eq_true]
    intro s hs
    simpa using hmax s hs

theorem mem_groupRows {pa : List AreaRow} {a : APN} {r : AreaRow} :
    r ∈ groupRows pa a ↔ r ∈ pa ∧ r.apn = a := by
  unfold groupRows
  rw [List.mem_filter]
  simp

theorem multiMap_nil : multiMap [] = [] := rfl

theorem mem_multiMap {pa : List AreaRow} {q : APN × Option ZoneLabel}
    (h : q ∈ multiMap pa) :
    q.1 ∈ pa.map (fun r => r.apn) ∧
      ∃ r, idxmaxRow (groupRows pa q.1) = some r ∧ q.2 = r.zoning := by
  unfold multiMap at h
  rcases List.mem_filterMap.mp h with ⟨a, ha, hg⟩
  rcases Option.map_eq_some'.mp hg with ⟨r, hr, hq⟩
  subst hq
  exact ⟨List.mem_dedup.mp ha, r, hr, rfl⟩

theorem filterMap_keyed_filter_not_mem {keys : List APN}
    {g : APN → Option (APN × Option ZoneLabel)}
    (hg : ∀ k p, g k = some p → p.1 = k) {a : APN} (ha : a ∉ keys) :
    (keys.filterMap g).filter (fun q => q.1 == a) = [] := by
  rw [List.filter_eq_nil_iff]
  intro q hq
  rcases List.mem_filterMap.mp hq with ⟨k, hk, hgk⟩
  have := hg k q hgk
  simp only [beq_iff_eq, this]
  intro hka
  exact ha (hka ▸ hk)

theorem filterMap_keyed_filter_mem {keys : List APN}
    {g : APN → Option (APN × Option ZoneLabel)}
    (hg : ∀ k p, g k = some p → p.1 = k) {a : APN} (hnd : keys.Nodup) (ha : a ∈ keys) :
    (keys.filterMap g).filter (fun q => q.1 == a) = (g a).toList := by
  induction keys with
  | nil => cases ha
  | cons k ks ih =>
    have hnd2 := List.nodup_cons.mp hnd
    rw [List.filterMap_cons]
    by_cases hk : k = a
    · subst hk
      have hrest : (ks.filterMap g).filter (fun q => q.1 == k) = [] :=
        filterMap_keyed_filter_not_mem hg hnd2.1
      cases hgk : g k with
      | none => simpa [hgk] using hrest
      | some p =>
        have hp1 : p.1 = k := hg k p hgk
        rw [List.filter_cons, if_pos (by simp [hp1])]
        rw [hrest]
        rfl
    · have ha2 : a ∈ ks := by
        rcases List.mem_cons.mp ha with rfl | h2
        · cases hk rfl
        · exact h2
      cases hgk : g k with
      | none => exact ih hnd2.2 ha2
      | some p =>
        have hp1 : p.1 = k := hg k p hgk
        rw [List.filter_cons, if_neg (by simp [hp1, hk])]
        exact ih hnd2.2 ha2

theorem multiMap_filter_mem {pa : List AreaRow} {a : APN}
    (ha : a ∈ pa.map (fun r => r.apn)) :
    (multiMap pa).filter (fun q => q.1 == a) =
      ((idxmaxRow (groupRows pa a)).map (fun r => (a, r.zoning))).toList := by
  unfold multiMap
  exact filterMap_keyed_filter_mem
    (fun k p hp => by
      rcases Option.map_eq_some'.mp hp with ⟨r, hr, hq⟩
      rw [← hq])
    (List.nodup_dedup _) (List.mem_dedup.mpr ha)

theorem multiMap_filter_not_mem {pa : List AreaRow} {a : APN}
    (ha : a ∉ pa.map (fun r => r.apn)) :
    (multiMap pa).filter (fun q => q.1 == a) = [] := by
  unfold multiMap
  exact filterMap_keyed_filter_not_mem
    (fun k p hp => by
      rcases Option.map_eq_some'.mp hp with ⟨r, hr, hq⟩
      rw [← hq])
    (fun hmem => ha (List.mem_dedup.mp hmem))

/-!
### Provenance of `poly_area` records
-/

theorem mem_polyAreaOf {G : Type} {E : GeomEngine G} {c : CRS} {ps : List (ParcelRow G)}
    {js : List JoinRow} {zs : List (ZoneRow G)} {r : AreaRow}
    (h : r ∈ polyAreaOf E c ps js zs) :
    0 < r.overlap_area ∧ 1 < nuniqueZones js r.apn ∧
      ∃ p ∈ ps, p.apn = r.apn ∧ ∃ zr ∈ zs, zr.zoning = r.zoning ∧
        r.overlap_area = E.area c (E.inter p.geom zr.geom) := by
  unfold polyAreaOf polyArea at h
  rcases List.mem_filter.mp h with ⟨h1, h2⟩
  unfold ovrArea at h1
  rcases List.mem_map.mp h1 with ⟨o, ho, rfl⟩
  unfold overlayRows at ho
  rcases List.mem_flatMap.mp ho with ⟨p, hp, hpz⟩
  rcases List.mem_filterMap.mp hpz with ⟨zr, hz, hif⟩
  unfold dupParcelsOf at hp
  rcases List.mem_filter.mp hp with ⟨hps, hdup⟩
  have hdup2 : 1 < nuniqueZones js p.apn := by
    have : p.apn ∈ dupIds js := by simpa using hdup
    exact mem_dupIds.mp this
  by_cases hemp : E.isEmpty (E.inter p.geom zr.geom) = true
  · rw [if_pos hemp] at hif
    cases hif
  · rw [if_neg hemp] at hif
    cases hif
    exact ⟨by simpa using h2, hdup2, p, hps, rfl, zr, hz, rfl, rfl⟩

theorem mem_polyAreaOf_intro {G : Type} {E : GeomEngine G} {c : CRS}
    {ps : List (ParcelRow G)} {js : List JoinRow} {zs : List (ZoneRow G)}
    {p : ParcelRow G} {zr : ZoneRow G}
    (hp : p ∈ ps) (hdup : 1 < nuniqueZones js p.apn)
    (hz : zr ∈ zs) (hne : E.isEmpty (E.inter p.geom zr.geom) = false)
    (hpos : 0 < E.area c (E.inter p.geom zr.geom)) :
    (⟨p.apn, zr.zoning, E.area c (E.inter p.geom zr.geom)⟩ : AreaRow) ∈
      polyAreaOf E c ps js zs := by
  unfold polyAreaOf polyArea
  rw [List.mem_filter]
  refine ⟨?_, by simpa using hpos⟩
  unfold ovrArea
  apply List.mem_map.mpr
  refine ⟨⟨p.apn, zr.zoning, E.inter p.geom zr.geom⟩, ?_, rfl⟩
  unfold overlayRows
  apply List.mem_flatMap.mpr
  refine ⟨p, ?_, ?_⟩
  · unfold dupParcelsOf
    rw [List.mem_filter]
    refine ⟨hp, ?_⟩
    simp [mem_dupIds, hdup]
  · apply List.mem_filterMap.mpr
    refine ⟨zr, hz, ?_⟩
    rw [if_neg (by simp [hne])]

/-!
### `lastNonNull` lemmas
-/

theorem lastNonNull_nil : lastNonNull [] = none := rfl

theorem lastNonNull_single {o : Option ZoneLabel} : lastNonNull [o] = o := by
  cases o <;> rfl

theorem lastNonNull_eq_some {vals : List (Option ZoneLabel)} {w : ZoneLabel}
    (h : lastNonNull vals = some w) : some w ∈ vals := by
  unfold lastNonNull at h
  have := getLast?_mem h
  rcases List.mem_filterMap.mp this with ⟨o, ho, heq⟩
  cases o with
  | none => cases heq
  | some z => cases heq; exact ho

theorem lastNonNull_all_eq {vals : List (Option ZoneLabel)} {z : ZoneLabel}
    (hne : ∃ v ∈ vals, v ≠ none) (hall : ∀ v ∈ vals, v ≠ none → v = some z) :
    lastNonNull vals = some z := by
  unfold lastNonNull
  apply getLast?_all_eq
  · rcases hne with ⟨v, hv, hvn⟩
    cases v with
    | none => cases hvn rfl
    | some x =>
      intro hnil
      have : x ∈ vals.filterMap id := List.mem_filterMap.mpr ⟨some x, hv, rfl⟩
      rw [hnil] at this
      cases this
  · intro x hx
    rcases List.mem_filterMap.mp hx with ⟨o, ho, heq⟩
    have hox : o = some x := by simpa using heq
    subst hox
    have := hall (some x) ho (by simp)
    simpa using this

/-!
### Inversion of a successful run of `overlap`
-/

theorem multiStep_ok {G : Type} {E : GeomEngine G} {P : ParcelsDF G} {Z : ZonesDF G}
    {J : JoinedDF} {ac zc : String} {mM : List (APN × Option ZoneLabel)}
    (h : multiStep E P Z J ac zc = .ok mM) :
    (mM = [] ∧ dupIds J.rows = []) ∨
      ∃ c, E.estimateUtmCrs (P.rows.map (fun p => p.geom)) = some c ∧
        mM = multiMap (polyAreaOf E c P.rows J.rows Z.rows) := by
  unfold multiStep at h
  split at h
  · rename_i hdup
    cases h
    exact Or.inl ⟨rfl, List.isEmpty_iff.mp hdup⟩
  · split at h
    · cases h
    · split at h
      · cases h
      · split at h
        · cases h
        · split at h
          · cases h
          · split at h
            · cases h
            · rename_i c hc
              cases h
              refine Or.inr ⟨c, hc, ?_⟩
              by_cases hpa : (polyAreaOf E c P.rows J.rows Z.rows).isEmpty = true
              · rw [if_pos hpa, List.isEmpty_iff.mp hpa, multiMap_nil]
              · rw [if_neg hpa]

theorem overlap_ok {G : Type} {E : GeomEngine G} {P : ParcelsDF G} {Z : ZonesDF G}
    {J : JoinedDF} {ac zc oc : String} {out : List (ParcelRow G × Option ZoneLabel)}
    (h : overlap E P Z J ac zc oc = .ok out) :
    ∃ mM, multiStep E P Z J ac zc = .ok mM ∧
      out = mergeLeft P.rows (finalMap (singleMap J.rows) mM) := by
  unfold overlap at h
  split at h
  · cases h
  · split at h
    · cases h
    · split at h
      · cases h
      · rename_i mM hms
        split at h
        · cases h
        · cases h
          exact ⟨mM, hms, rfl⟩

theorem overlap_out_fst {G : Type} {E : GeomEngine G} {P : ParcelsDF G} {Z : ZonesDF G}
    {J : JoinedDF} {ac zc oc : String} {out : List (ParcelRow G × Option ZoneLabel)}
    (h : overlap E P Z J ac zc oc = .ok out) :
    out.map Prod.fst = P.rows := by
  rcases overlap_ok h with ⟨mM, hms, rfl⟩
  exact mergeLeft_fst finalMap_keys_nodup

theorem overlap_out_value {G : Type} {E : GeomEngine G} {P : ParcelsDF G} {Z : ZonesDF G}
    {J : JoinedDF} {ac zc oc : String} {out : List (ParcelRow G × Option ZoneLabel)}
    (h : overlap E P Z J ac zc oc = .ok out)
    {q : ParcelRow G × Option ZoneLabel} (hq : q ∈ out) :
    q.1 ∈ P.rows ∧ ∃ mM, multiStep E P Z J ac zc = .ok mM ∧
      q.2 = lastNonNull (((singleMap J.rows ++ mM).filter
        (fun p2 => p2.1 == q.1.apn)).map Prod.snd) := by
  rcases overlap_ok h with ⟨mM, hms, rfl⟩
  rcases mergeLeft_mem finalMap_keys_nodup hq with ⟨hmem, hval⟩
  exact ⟨hmem, mM, hms, by rw [hval, lookupVal_finalMap]⟩

/-!
### Claim theorems
-/

/-- C3: for every Parcel collection, Zone collection and Join Record
collection, a successful run of `overlap` returns exactly as many rows as
the parcel input — no parcel row is dropped or duplicated, regardless of
how many join records match. -/
theorem C3_row_count {G : Type} {E : GeomEngine G} {P : ParcelsDF G} {Z : ZonesDF G}
    {J : JoinedDF} {out : List (ParcelRow G × Option ZoneLabel)}
    (h : overlap E P Z J = .ok out) : out.length = P.rows.length := by
  have hfst := overlap_out_fst h
  calc out.length = (out.map Prod.fst).length := (List.length_map _ _).symm
  _ = P.rows.length := by rw [hfst]

/-- Witness for C3: a concrete run with two parcels, one matched by two
join rows and one unmatched, returns two rows. -/
theorem C3_row_count_witness :
    overlap Eone Psing Zcex Jsing =
        .ok [(⟨"P1", 0⟩, some "A"), (⟨"P9", 7⟩, none)] ∧
      ([(⟨"P1", 0⟩, (some "A" : Option ZoneLabel)), (⟨"P9", 7⟩, none)] :
        List (ParcelRow Nat × Option ZoneLabel)).length = Psing.rows.length :=
  ⟨by decide,
    @C3_row_count Nat Eone Psing Zcex Jsing
      [(⟨"P1", 0⟩, some "A"), (⟨"P9", 7⟩, none)] (by decide)⟩

/-- Shared pass-through lemma: a parcel whose join rows carry exactly one
distinct non-null zoning label `z` receives final label `z`, for every
geometry engine. -/
theorem overlap_single_pass {G : Type} {E : GeomEngine G} {P : ParcelsDF G}
    {Z : ZonesDF G} {J : JoinedDF} {out : List (ParcelRow G × Option ZoneLabel)}
    {x : APN} {z : ZoneLabel}
    (hz : ((J.rows.filter (fun r => r.apn == x)).filterMap (fun r => r.zoning)).dedup = [z])
    (h : overlap E P Z J = .ok out) :
    ∀ q ∈ out, q.1.apn = x → q.2 = some z := by
  intro q hq hqa
  rcases overlap_out_value h hq with ⟨-, mM, hms, hval⟩
  rw [hqa] at hval
  have h1 : nuniqueZones J.rows x = 1 := by unfold nuniqueZones; rw [hz]; rfl
  have hmulti : mM.filter (fun p2 => p2.1 == x) = [] := by
    rcases multiStep_ok hms with ⟨rfl, -⟩ | ⟨c, hc, rfl⟩
    · rfl
    · apply multiMap_filter_not_mem
      intro hmem
      rcases List.mem_map.mp hmem with ⟨r, hr, hra⟩
      have h2 := (mem_polyAreaOf hr).2.1
      rw [hra, h1] at h2
      exact absurd h2 (lt_irrefl 1)
  rw [List.filter_append, List.map_append, singleMap_filter_of_single h1, hmulti] at hval
  rw [hval]
  apply lastNonNull_all_eq
  · have hzmem : z ∈ (J.rows.filter (fun r => r.apn == x)).filterMap (fun r => r.zoning) := by
      rw [← List.mem_dedup, hz]
      simp
    rcases List.mem_filterMap.mp hzmem with ⟨r, hr, hrz⟩
    refine ⟨some z, ?_, by simp⟩
    simp only [List.map_map, List.map_nil, List.append_nil]
    apply List.mem_map.mpr
    refine ⟨r, hr, ?_⟩
    simpa [Function.comp] using hrz
  · intro v hv hvne
    simp only [List.map_map, List.map_nil, List.append_nil] at hv
    rcases List.mem_map.mp hv with ⟨r, hr, hrv⟩
    have hrz : r.zoning = v := by simpa [Function.comp] using hrv
    cases v with
    | none => cases hvne rfl
    | some w =>
      have hw : w ∈ (J.rows.filter (fun r => r.apn == x)).filterMap (fun r => r.zoning) :=
        List.mem_filterMap.mpr ⟨r, hr, hrz⟩
      rw [← List.mem_dedup, hz] at hw
      simp at hw
      rw [hw]

/-- C4: a parcel whose join records carry exactly one distinct non-null
zoning label `z` — possibly across several rows — receives final label `z`,
for every geometry engine (hence irrespective of actual overlap areas). -/
theorem C4_single_passthrough {G : Type} {E : GeomEngine G} {P : ParcelsDF G}
    {Z : ZonesDF G} {J : JoinedDF} {out : List (ParcelRow G × Option ZoneLabel)}
    {x : APN} {z : ZoneLabel}
    (hz : ((J.rows.filter (fun r => r.apn == x)).filterMap (fun r => r.zoning)).dedup = [z])
    (h : overlap E P Z J = .ok out) :
    ∀ q ∈ out, q.1.apn = x → q.2 = some z :=
  overlap_single_pass hz h

/-- Witness for C4: parcel "P1" has two join rows, both labelled "A", and its
output label is "A". -/
theorem C4_single_passthrough_witness :
    ((Jsing.rows.filter (fun r => r.apn == "P1")).filterMap (fun r => r.zoning)).dedup
        = ["A"] ∧
      ((⟨"P1", 0⟩, some "A") : ParcelRow Nat × Option ZoneLabel).2 = some "A" :=
  ⟨by decide,
    @C4_single_passthrough Nat Eone Psing Zcex Jsing
      [(⟨"P1", 0⟩, some "A"), (⟨"P9", 7⟩, none)] "P1" "A"
      (by decide) (by decide) (⟨"P1", 0⟩, some "A") (by decide) rfl⟩

/-- C9: a parcel with no join rows at all keeps its row in the output (the
output's parcel rows are exactly the input's) and its final label is null. -/
theorem C9_no_match_null {G : Type} {E : GeomEngine G} {P : ParcelsDF G} {Z : ZonesDF G}
    {J : JoinedDF} {out : List (ParcelRow G × Option ZoneLabel)} {y : APN}
    (hy : ∀ r ∈ J.rows, r.apn ≠ y) (h : overlap E P Z J = .ok out) :
    out.map Prod.fst = P.rows ∧ ∀ q ∈ out, q.1.apn = y → q.2 = none := by
  refine ⟨overlap_out_fst h, ?_⟩
  intro q hq hqa
  rcases overlap_out_value h hq with ⟨-, mM, hms, hval⟩
  rw [hqa] at hval
  have hs : (singleMap J.rows).filter (fun p2 => p2.1 == y) = [] :=
    singleMap_filter_of_no_rows hy
  have hm : mM.filter (fun p2 => p2.1 == y) = [] := by
    rcases multiStep_ok hms with ⟨rfl, -⟩ | ⟨c, hc, rfl⟩
    · rfl
    · apply multiMap_filter_not_mem
      intro hmem
      rcases List.mem_map.mp hmem with ⟨r, hr, hra⟩
      have h2 := (mem_polyAreaOf hr).2.1
      have h3 := mem_apns_of_nunique_pos (show 0 < nuniqueZones J.rows r.apn by omega)
      rcases List.mem_map.mp h3 with ⟨jr, hjr, hjra⟩
      exact hy jr hjr (by rw [hjra, hra])
  rw [List.filter_append, List.map_append, hs, hm] at hval
  rw [hval]
  rfl

/-- Witness for C9: parcel "P9" has no join rows; its output row is kept and
carries a null label. -/
theorem C9_no_match_null_witness :
    (∀ r ∈ Jsing.rows, r.apn ≠ "P9") ∧
      ([(⟨"P1", 0⟩, (some "A" : Option ZoneLabel)), (⟨"P9", 7⟩, none)].map Prod.fst
          = Psing.rows ∧
        ∀ q ∈ ([(⟨"P1", 0⟩, (some "A" : Option ZoneLabel)), (⟨"P9", 7⟩, none)] :
          List (ParcelRow Nat × Option ZoneLabel)), q.1.apn = "P9" → q.2 = none) :=
  ⟨by decide,
    @C9_no_match_null Nat Eone Psing Zcex Jsing
      [(⟨"P1", 0⟩, some "A"), (⟨"P9", 7⟩, none)] "P9" (by decide) (by decide)⟩

/-- C5: for an ambiguous parcel, `overlap` assigns the zoning label of the
record first encountered in iteration order over the positive-area overlay
records among those attaining the parcel's maximal area (pandas `idxmax`
returns the first occurrence of the maximum): if the parcel's `poly_area`
group splits as `pre ++ r :: post` with every record of `pre` of strictly
smaller area and every record of `post` of at most `r`'s area — so that ties
with `r` can only occur after `r` — then the final label is `r`'s. -/
theorem C5_tie_break_first_encountered {G : Type} {E : GeomEngine G} {P : ParcelsDF G}
    {Z : ZonesDF G} {J : JoinedDF} {out : List (ParcelRow G × Option ZoneLabel)}
    {a : APN} {c : CRS} {pre post : List AreaRow} {r : AreaRow}
    (hdup : 1 < nuniqueZones J.rows a)
    (hcrs : E.estimateUtmCrs (P.rows.map (fun p => p.geom)) = some c)
    (hsplit : groupRows (polyAreaOf E c P.rows J.rows Z.rows) a = pre ++ r :: post)
    (hpre : ∀ s ∈ pre, s.overlap_area < r.overlap_area)
    (hpost : ∀ s ∈ post, s.overlap_area ≤ r.overlap_area)
    (h : overlap E P Z J = .ok out) :
    ∀ q ∈ out, q.1.apn = a → q.2 = r.zoning := by
  intro q hq hqa
  rcases overlap_out_value h hq with ⟨-, mM, hms, hval⟩
  rw [hqa] at hval
  have hrmem : r ∈ groupRows (polyAreaOf E c P.rows J.rows Z.rows) a := by
    rw [hsplit]
    simp
  have hmax : ∀ s ∈ pre ++ r :: post, s.overlap_area ≤ r.overlap_area := by
    intro s hs
    rcases List.mem_append.mp hs with hs | hs
    · exact (hpre s hs).le
    · rcases List.mem_cons.mp hs with rfl | hs
      · exact le_refl _
      · exact hpost s hs
  have hidx : idxmaxRow (groupRows (polyAreaOf E c P.rows J.rows Z.rows) a) = some r := by
    rw [hsplit]
    exact idxmaxRow_first hpre hmax
  rcases multiStep_ok hms with ⟨rfl, hnil⟩ | ⟨c2, hc2, rfl⟩
  · have : a ∈ dupIds J.rows := mem_dupIds.mpr hdup
    rw [hnil] at this
    cases this
  · rw [hcrs] at hc2
    cases hc2
    have hkey : a ∈ (polyAreaOf E c P.rows J.rows Z.rows).map (fun t => t.apn) := by
      rcases mem_groupRows.mp hrmem with ⟨hpa, hapn⟩
      exact List.mem_map.mpr ⟨r, hpa, hapn⟩
    have h1 : nuniqueZones J.rows a ≠ 1 := by omega
    rw [List.filter_append, List.map_append, singleMap_filter_of_not_single h1,
      multiMap_filter_mem hkey, hidx] at hval
    rw [hval]
    exact lastNonNull_single

/-- Witness for C5: an exact tie — zones "A" and "B" both intersect parcel
"X" with area 4 — is resolved for "A", the record first in overlay order. -/
theorem C5_tie_break_first_encountered_witness :
    groupRows (polyAreaOf Etie 0 Pcex.rows Jcex.rows Zcex.rows) "X" =
        [⟨"X", some "A", 4⟩, ⟨"X", some "B", 4⟩] ∧
      ((⟨"X", 0⟩, some "A") : ParcelRow Nat × Option ZoneLabel).2 = some "A" :=
  ⟨by decide,
    @C5_tie_break_first_encountered Nat Etie Pcex Zcex Jcex
      [(⟨"X", 0⟩, some "A")] "X" 0 [] [⟨"X", some "B", 4⟩] ⟨"X", some "A", 4⟩
      (by decide) (by decide) (by decide) (by decide) (by decide) (by decide)
      (⟨"X", 0⟩, some "A") (by decide) rfl⟩

/-- C8: only records of strictly positive projected area take part in the
maximum-area selection — an ambiguous parcel's non-null final label always
stems from a zone row whose intersection with one of the parcel's rows has
strictly positive projected area — and a parcel with a single distinct
candidate label receives it through the pass-through path for every
geometry engine, in particular when its only overlap has zero area. -/
theorem C8_positive_area_only {G : Type} {E : GeomEngine G} {P : ParcelsDF G}
    {Z : ZonesDF G} {J : JoinedDF} {out : List (ParcelRow G × Option ZoneLabel)}
    (h : overlap E P Z J = .ok out) :
    (∀ q ∈ out, ∀ w, q.2 = some w → 1 < nuniqueZones J.rows q.1.apn →
      ∃ c, E.estimateUtmCrs (P.rows.map (fun p => p.geom)) = some c ∧
        ∃ p ∈ P.rows, p.apn = q.1.apn ∧ ∃ zr ∈ Z.rows, zr.zoning = some w ∧
          0 < E.area c (E.inter p.geom zr.geom)) ∧
    (∀ x z,
      ((J.rows.filter (fun r => r.apn == x)).filterMap (fun r => r.zoning)).dedup = [z] →
      ∀ q ∈ out, q.1.apn = x → q.2 = some z) := by
  constructor
  · intro q hq w hw hdup
    rcases overlap_out_value h hq with ⟨-, mM, hms, hval⟩
    rcases multiStep_ok hms with ⟨rfl, hnil⟩ | ⟨c, hc, rfl⟩
    · exfalso
      have : q.1.apn ∈ dupIds J.rows := mem_dupIds.mpr hdup
      rw [hnil] at this
      cases this
    · have h1 : nuniqueZones J.rows q.1.apn ≠ 1 := by omega
      by_cases hkey : q.1.apn ∈ (polyAreaOf E c P.rows J.rows Z.rows).map (fun t => t.apn)
      · have hgne : groupRows (polyAreaOf E c P.rows J.rows Z.rows) q.1.apn ≠ [] := by
          rcases List.mem_map.mp hkey with ⟨t, ht, hta⟩
          intro hnil2
          have : t ∈ groupRows (polyAreaOf E c P.rows J.rows Z.rows) q.1.apn :=
            mem_groupRows.mpr ⟨ht, hta⟩
          rw [hnil2] at this
          cases this
        rcases idxmaxRow_eq_some hgne with ⟨r0, hr0⟩
        rw [List.filter_append, List.map_append, singleMap_filter_of_not_single h1,
          multiMap_filter_mem hkey, hr0] at hval
        have hval2 : q.2 = r0.zoning := by
          rw [hval]
          exact lastNonNull_single
        have hr0z : r0.zoning = some w := by rw [← hval2, hw]
        rcases mem_groupRows.mp (idxmaxRow_spec hr0).1 with ⟨hr0pa, hr0a⟩
        rcases mem_polyAreaOf hr0pa with ⟨hpos, -, p, hp, hpa, zr, hz, hzr, harea⟩
        refine ⟨c, hc, p, hp, by rw [hpa, hr0a], zr, hz, by rw [hzr, hr0z], ?_⟩
        rw [← harea]
        exact hpos
      · exfalso
        rw [List.filter_append, List.map_append, singleMap_filter_of_not_single h1,
          multiMap_filter_not_mem hkey] at hval
        rw [hval] at hw
        cases hw
  · intro x z hz
    exact overlap_single_pass hz h

/-- Witness for C8: in the concrete overlay scenario the winning label "C"
of the ambiguous parcel "X" comes from a zone row with positive area. -/
theorem C8_positive_area_only_witness :
    (1 < nuniqueZones Jcex.rows "X") ∧
      (∃ c, Ecex.estimateUtmCrs (Pcex.rows.map (fun p => p.geom)) = some c ∧
        ∃ p ∈ Pcex.rows, p.apn = "X" ∧ ∃ zr ∈ Zcex.rows, zr.zoning = some "C" ∧
          0 < Ecex.area c (Ecex.inter p.geom zr.geom)) :=
  ⟨by decide,
    (@C8_positive_area_only Nat Ecex Pcex Zcex Jcex [(⟨"X", 0⟩, some "C")]
        (by decide)).1
      (⟨"X", 0⟩, some "C") (by decide) "C" rfl (by decide)⟩

/-- C1 counterexample: parcel "X" has join records only for labels "A" and
"B", yet `overlap` assigns it "C" — the overlay runs against the whole zone
layer, so the final label need not occur in any join record for that
parcel. -/
theorem C1_counterexample :
    overlap Ecex Pcex Zcex Jcex = .ok [(⟨"X", 0⟩, some "C")] ∧
      (some "C") ∉ (Jcex.rows.filter (fun r => r.apn == "X")).map (fun r => r.zoning) := by
  decide

/-- C1 amended: every non-null final label either occurs in some join record
for that parcel identifier, or the parcel is ambiguous and the label is that
of a zone row whose intersection with one of the identifier's parcel rows
has strictly positive projected area. -/
theorem C1_amended_label_provenance {G : Type} {E : GeomEngine G} {P : ParcelsDF G}
    {Z : ZonesDF G} {J : JoinedDF} {out : List (ParcelRow G × Option ZoneLabel)}
    (h : overlap E P Z J = .ok out) :
    ∀ q ∈ out, ∀ w, q.2 = some w →
      (some w) ∈ (J.rows.filter (fun r => r.apn == q.1.apn)).map (fun r => r.zoning) ∨
      (1 < nuniqueZones J.rows q.1.apn ∧
        ∃ c, E.estimateUtmCrs (P.rows.map (fun p => p.geom)) = some c ∧
          ∃ p ∈ P.rows, p.apn = q.1.apn ∧ ∃ zr ∈ Z.rows, zr.zoning = some w ∧
            0 < E.area c (E.inter p.geom zr.geom)) := by
  intro q hq w hw
  rcases overlap_out_value h hq with ⟨-, mM, hms, hval⟩
  rw [hw] at hval
  have hmem := lastNonNull_eq_some hval.symm
  rw [List.filter_append, List.map_append] at hmem
  rcases List.mem_append.mp hmem with hs | hm
  · left
    rcases List.mem_map.mp hs with ⟨pr, hpr, hprv⟩
    rcases List.mem_filter.mp hpr with ⟨hpr2, hprk⟩
    unfold singleMap at hpr2
    rcases List.mem_map.mp hpr2 with ⟨jr, hjr, rfl⟩
    apply List.mem_map.mpr
    refine ⟨jr, ?_, ?_⟩
    · rw [List.mem_filter]
      exact ⟨(List.mem_filter.mp hjr).1, by simpa using hprk⟩
    · rw [← hprv]
  · right
    rcases multiStep_ok hms with ⟨rfl, hnil⟩ | ⟨c, hc, rfl⟩
    · rcases List.mem_map.mp hm with ⟨pr, hpr, hprv⟩
      rw [List.filter_nil] at hpr
      cases hpr
    · rcases List.mem_map.mp hm with ⟨pr, hpr, hprv⟩
      rcases List.mem_filter.mp hpr with ⟨hpr2, hprk⟩
      rcases mem_multiMap hpr2 with ⟨hkey, r0, hidx, hpz⟩
      rcases mem_groupRows.mp (idxmaxRow_spec hidx).1 with ⟨hr0pa, hr0a⟩
      rcases mem_polyAreaOf hr0pa with ⟨hpos, hdup, p, hp, hpa, zr, hz, hzr, harea⟩
      have hprk2 : pr.1 = q.1.apn := by simpa using hprk
      constructor
      · rw [hr0a, hprk2] at hdup
        exact hdup
      · refine ⟨c, hc, p, hp, by rw [hpa, hr0a, hprk2], zr, hz, ?_, ?_⟩
        · rw [hzr, ← hpz, hprv]
        · rw [← harea]
          exact hpos

/-- Witness for C1 amended: in the counterexample scenario the label "C" of
parcel "X" is accounted for by the ambiguous-overlay disjunct. -/
theorem C1_amended_label_provenance_witness :
    (some "C") ∈ (Jcex.rows.filter (fun r => r.apn == "X")).map (fun r => r.zoning) ∨
      (1 < nuniqueZones Jcex.rows "X" ∧
        ∃ c, Ecex.estimateUtmCrs (Pcex.rows.map (fun p => p.geom)) = some c ∧
          ∃ p ∈ Pcex.rows, p.apn = "X" ∧ ∃ zr ∈ Zcex.rows, zr.zoning = some "C" ∧
            0 < Ecex.area c (Ecex.inter p.geom zr.geom)) :=
  @C1_amended_label_provenance Nat Ecex Pcex Zcex Jcex [(⟨"X", 0⟩, some "C")]
    (by decide) (⟨"X", 0⟩, some "C") (by decide) "C" rfl

/-- C2 counterexample: parcel "X" has exactly the candidate labels "A" and
"B" in the join table and its positive intersection area with zone "A" (2)
strictly exceeds that with zone "B" (1), yet the final label is "C", whose
overlap (5) is larger still — the overlay is not restricted to the
join-table candidates. -/
theorem C2_counterexample :
    ((Jcex.rows.filter (fun r => r.apn == "X")).filterMap (fun r => r.zoning)).dedup
        = ["A", "B"] ∧
      (0 : ℚ) < Ecex.area 0 (Ecex.inter 0 1) ∧
      Ecex.area 0 (Ecex.inter 0 2) < Ecex.area 0 (Ecex.inter 0 1) ∧
      overlap Ecex Pcex Zcex Jcex = .ok [(⟨"X", 0⟩, some "C")] ∧
      some "C" ≠ some "A" := by
  decide

/-- C2 amended: if parcel `x` has exactly the two distinct candidate labels
`A` and `B` — in either order, the hypothesis is symmetric in which of the
two candidates is listed first — a single parcel row `p`, and a zone row
labelled `A` whose intersection with `p` has positive projected area
strictly exceeding the intersection area of `p` with every zone row not
labelled `A` (not merely with `B`), then the final label of `x` is `A`.
The engine hypothesis `hE` states that empty intersections have zero
area. -/
theorem C2_amended_max_area {G : Type} {E : GeomEngine G} {P : ParcelsDF G}
    {Z : ZonesDF G} {J : JoinedDF} {out : List (ParcelRow G × Option ZoneLabel)}
    {x : APN} {A B : ZoneLabel} {p : ParcelRow G} {zA : ZoneRow G} {c : CRS}
    (hE : ∀ g, E.isEmpty g = true → E.area c g = 0)
    (hcand : ((J.rows.filter (fun r => r.apn == x)).filterMap (fun r => r.zoning)).dedup
        = [A, B] ∨
      ((J.rows.filter (fun r => r.apn == x)).filterMap (fun r => r.zoning)).dedup
        = [B, A])
    (hp : P.rows.filter (fun r => r.apn == x) = [p])
    (hcrs : E.estimateUtmCrs (P.rows.map (fun pr => pr.geom)) = some c)
    (hzA : zA ∈ Z.rows) (hzAlab : zA.zoning = some A)
    (hpos : 0 < E.area c (E.inter p.geom zA.geom))
    (hdom : ∀ zr ∈ Z.rows, zr.zoning ≠ some A →
      E.area c (E.inter p.geom zr.geom) < E.area c (E.inter p.geom zA.geom))
    (h : overlap E P Z J = .ok out) :
    ∀ q ∈ out, q.1.apn = x → q.2 = some A := by
  intro q hq hqa
  rcases overlap_out_value h hq with ⟨-, mM, hms, hval⟩
  rw [hqa] at hval
  have hdup : 1 < nuniqueZones J.rows x := by
    unfold nuniqueZones
    rcases hcand with hcand | hcand <;> rw [hcand] <;> simp
  have hpP : p ∈ P.rows ∧ p.apn = x := by
    have : p ∈ P.rows.filter (fun r => r.apn == x) := by
      rw [hp]
      simp
    rcases List.mem_filter.mp this with ⟨h1, h2⟩
    exact ⟨h1, by simpa using h2⟩
  have hne : E.isEmpty (E.inter p.geom zA.geom) = false := by
    by_cases hemp : E.isEmpty (E.inter p.geom zA.geom) = true
    · rw [hE _ hemp] at hpos
      exact absurd hpos (lt_irrefl 0)
    · simpa using hemp
  have hrA : (⟨p.apn, zA.zoning, E.area c (E.inter p.geom zA.geom)⟩ : AreaRow) ∈
      polyAreaOf E c P.rows J.rows Z.rows :=
    mem_polyAreaOf_intro hpP.1 (by rw [hpP.2]; exact hdup) hzA hne hpos
  have hrAg : (⟨p.apn, zA.zoning, E.area c (E.inter p.geom zA.geom)⟩ : AreaRow) ∈
      groupRows (polyAreaOf E c P.rows J.rows Z.rows) x :=
    mem_groupRows.mpr ⟨hrA, hpP.2⟩
  have hgne : groupRows (polyAreaOf E c P.rows J.rows Z.rows) x ≠ [] := by
    intro hnil
    rw [hnil] at hrAg
    cases hrAg
  rcases idxmaxRow_eq_some hgne with ⟨r0, hr0⟩
  have hr0max := (idxmaxRow_spec hr0).2 _ hrAg
  rcases mem_groupRows.mp (idxmaxRow_spec hr0).1 with ⟨hr0pa, hr0a⟩
  rcases mem_polyAreaOf hr0pa with ⟨hpos0, -, p2, hp2, hp2a, zr, hz, hzr, harea⟩
  have hp2p : p2 = p := by
    have : p2 ∈ P.rows.filter (fun r => r.apn == x) := by
      rw [List.mem_filter]
      exact ⟨hp2, by simp [hp2a, hr0a]⟩
    rw [hp] at this
    simpa using this
  have hr0z : r0.zoning = some A := by
    by_cases hza : zr.zoning = some A
    · rw [← hzr, hza]
    · exfalso
      have hlt := hdom zr hz hza
      rw [hp2p] at harea
      have : r0.overlap_area < E.area c (E.inter p.geom zA.geom) := by
        rw [harea]
        exact hlt
      simp only [AreaRow.mk.injEq] at hr0max
      exact absurd (lt_of_le_of_lt hr0max this) (lt_irrefl _)
  rcases multiStep_ok hms with ⟨rfl, hnil⟩ | ⟨c2, hc2, rfl⟩
  · have : x ∈ dupIds J.rows := mem_dupIds.mpr hdup
    rw [hnil] at this
    cases this
  · rw [hcrs] at hc2
    cases hc2
    have hkey : x ∈ (polyAreaOf E c P.rows J.rows Z.rows).map (fun t => t.apn) :=
      List.mem_map.mpr ⟨r0, hr0pa, hr0a⟩
    have h1 : nuniqueZones J.rows x ≠ 1 := by omega
    rw [List.filter_append, List.map_append, singleMap_filter_of_not_single h1,
      multiMap_filter_mem hkey, hr0] at hval
    rw [hval, ← hr0z]
    exact lastNonNull_single

/-- Witness for C2 amended, in both candidate orders: parcel "X" has the
candidate list ["A", "B"]; under `EdomA` (areas 3 vs 1) the dominator "A" —
first in the list — wins, and under `EdomB` (areas 1 vs 3) the dominator
"B" — second in the list — wins. -/
theorem C2_amended_max_area_witness :
    ((Jcex.rows.filter (fun r => r.apn == "X")).filterMap (fun r => r.zoning)).dedup
        = ["A", "B"] ∧
      ((⟨"X", 0⟩, some "A") : ParcelRow Nat × Option ZoneLabel).2 = some "A" ∧
      ((⟨"X", 0⟩, some "B") : ParcelRow Nat × Option ZoneLabel).2 = some "B" :=
  ⟨by decide,
    @C2_amended_max_area Nat EdomA Pcex Zab Jcex [(⟨"X", 0⟩, some "A")]
      "X" "A" "B" ⟨"X", 0⟩ ⟨some "A", 1⟩ 0
      (fun g hg => by simp [EdomA, tEngine] at hg)
      (Or.inl (by decide)) (by decide) (by decide) (by decide) (by decide) (by decide)
      (by decide) (by decide) (⟨"X", 0⟩, some "A") (by decide) rfl,
    @C2_amended_max_area Nat EdomB Pcex Zab Jcex [(⟨"X", 0⟩, some "B")]
      "X" "B" "A" ⟨"X", 0⟩ ⟨some "B", 2⟩ 0
      (fun g hg => by simp [EdomB, tEngine] at hg)
      (Or.inr (by decide)) (by decide) (by decide) (by decide) (by decide) (by decide)
      (by decide) (by decide) (⟨"X", 0⟩, some "B") (by decide) rfl⟩

/-- C6: when some parcel is ambiguous and no projected CRS can be estimated,
`overlap` raises the `ValueError` of lines 50-51 and produces no output at
all — there is no fallback to an unprojected area computation. -/
theorem C6_crs_failure_fatal {G : Type} {E : GeomEngine G} {P : ParcelsDF G}
    {Z : ZonesDF G} {J : JoinedDF}
    (hJ1 : J.hasApn = true) (hJ2 : J.hasZoning = true)
    (hP1 : P.hasApn = true) (hP2 : P.hasGeometry = true)
    (hZ1 : Z.hasZoning = true) (hZ2 : Z.hasGeometry = true)
    (hdup : dupIds J.rows ≠ [])
    (hcrs : E.estimateUtmCrs (P.rows.map (fun p => p.geom)) = none) :
    overlap E P Z J =
      .error (.valueError "Could not estimate a projected CRS for area calculations.") := by
  have hemp : (dupIds J.rows).isEmpty = false := by
    rw [← Bool.not_eq_true, List.isEmpty_iff]
    exact hdup
  simp [overlap, multiStep, hJ1, hJ2, hP1, hP2, hZ1, hZ2, hemp, hcrs]

/-- Witness for C6: a concrete ambiguous input with failing CRS estimation
yields the `ValueError`. -/
theorem C6_crs_failure_fatal_witness :
    dupIds Jcex.rows ≠ [] ∧
      overlap Enone Pcex Zcex Jcex =
        .error (.valueError "Could not estimate a projected CRS for area calculations.") :=
  ⟨by decide,
    C6_crs_failure_fatal (by decide) (by decide) (by decide) (by decide) (by decide)
      (by decide) (by decide) (by decide)⟩

/-- C10 (implicit): when no parcel is ambiguous, `overlap` performs no
overlay, CRS estimation or reprojection — the result does not depend on the
geometry engine at all — so it succeeds even though `estimate_utm_crs`
would return no CRS. -/
theorem C10_no_dup_no_geometry {G : Type} {E : GeomEngine G} {P : ParcelsDF G}
    {Z : ZonesDF G} {J : JoinedDF}
    (hJ1 : J.hasApn = true) (hJ2 : J.hasZoning = true) (hP1 : P.hasApn = true)
    (hdup : dupIds J.rows = [])
    (hcrs : E.estimateUtmCrs (P.rows.map (fun p => p.geom)) = none) :
    overlap E P Z J = .ok (mergeLeft P.rows (finalMap (singleMap J.rows) [])) := by
  simp [overlap, multiStep, hJ1, hJ2, hP1, hdup]

/-- Witness for C10: a single-candidate input under the failing-CRS engine
still succeeds. -/
theorem C10_no_dup_no_geometry_witness :
    dupIds Jsing.rows = [] ∧
      overlap Enone Psing Zcex Jsing =
        .ok (mergeLeft Psing.rows (finalMap (singleMap Jsing.rows) [])) :=
  ⟨by decide,
    C10_no_dup_no_geometry (by decide) (by decide) (by decide) (by decide) (by decide)⟩

/-- C7 counterexample: the zones input lacks its required zoning-label
column, yet `overlap` performs the whole computation and succeeds, because
no parcel is ambiguous — there is no fail-fast precondition check. -/
theorem C7_counterexample :
    ZnoZoning.hasZoning = false ∧
      overlap Eone Psing ZnoZoning Jsing =
        .ok [(⟨"P1", 0⟩, some "A"), (⟨"P9", 7⟩, none)] := by
  decide

/-- C7 amended: a missing required column raises a pandas `KeyError` at the
point of first access, and the error names only the column, not the input:
a missing identifier or zoning column on the join table fails before
anything else; the geometry column of parcels and the zoning and geometry
columns of zones are accessed only when some parcel is ambiguous; a missing
identifier column on parcels fails at the overlay selection or, when no
parcel is ambiguous, at the final merge — but after the single-candidate
computation; and with no ambiguous parcel a run missing the zones columns,
the parcels geometry column, or the join geometry column succeeds. -/
theorem C7_amended_lazy_column_errors {G : Type} (E : GeomEngine G) (P : ParcelsDF G)
    (Z : ZonesDF G) (J : JoinedDF) :
    (J.hasApn = false → overlap E P Z J = .error (.keyError "APN")) ∧
    (J.hasApn = true → J.hasZoning = false →
      overlap E P Z J = .error (.keyError "ZONING")) ∧
    (J.hasApn = true → J.hasZoning = true → dupIds J.rows ≠ [] → P.hasApn = false →
      overlap E P Z J = .error (.keyError "APN")) ∧
    (J.hasApn = true → J.hasZoning = true → dupIds J.rows ≠ [] → P.hasApn = true →
      P.hasGeometry = false → overlap E P Z J = .error (.keyError "geometry")) ∧
    (J.hasApn = true → J.hasZoning = true → dupIds J.rows ≠ [] → P.hasApn = true →
      P.hasGeometry = true → Z.hasZoning = false →
      overlap E P Z J = .error (.keyError "ZONING")) ∧
    (J.hasApn = true → J.hasZoning = true → dupIds J.rows ≠ [] → P.hasApn = true →
      P.hasGeometry = true → Z.hasZoning = true → Z.hasGeometry = false →
      overlap E P Z J = .error (.keyError "geometry")) ∧
    (J.hasApn = true → J.hasZoning = true → dupIds J.rows = [] → P.hasApn = false →
      overlap E P Z J = .error (.keyError "APN")) ∧
    (J.hasApn = true → J.hasZoning = true → dupIds J.rows = [] → P.hasApn = true →
      ∃ res, overlap E P Z J = .ok res) := by
  refine ⟨?_, ?_, ?_, ?_, ?_, ?_, ?_, ?_⟩
  · intro h1
    simp [overlap, h1]
  · intro h1 h2
    simp [overlap, h1, h2]
  · intro h1 h2 h3 h4
    have hemp : (dupIds J.rows).isEmpty = false := by
      rw [← Bool.not_eq_true, List.isEmpty_iff]
      exact h3
    simp [overlap, multiStep, h1, h2, h4, hemp]
  · intro h1 h2 h3 h4 h5
    have hemp : (dupIds J.rows).isEmpty = false := by
      rw [← Bool.not_eq_true, List.isEmpty_iff]
      exact h3
    simp [overlap, multiStep, h1, h2, h4, h5, hemp]
  · intro h1 h2 h3 h4 h5 h6
    have hemp : (dupIds J.rows).isEmpty = false := by
      rw [← Bool.not_eq_true, List.isEmpty_iff]
      exact h3
    simp [overlap, multiStep, h1, h2, h4, h5, h6, hemp]
  · intro h1 h2 h3 h4 h5 h6 h7
    have hemp : (dupIds J.rows).isEmpty = false := by
      rw [← Bool.not_eq_true, List.isEmpty_iff]
      exact h3
    simp [overlap, multiStep, h1, h2, h4, h5, h6, h7, hemp]
  · intro h1 h2 h3 h4
    simp [overlap, multiStep, h1, h2, h3, h4]
  · intro h1 h2 h3 h4
    exact ⟨mergeLeft P.rows (finalMap (singleMap J.rows) []),
      by simp [overlap, multiStep, h1, h2, h3, h4]⟩

/-- Witness for C7 amended: a join table without its identifier column fails
with `KeyError "APN"`, while a zones input without its zoning column
succeeds when no parcel is ambiguous. -/
theorem C7_amended_lazy_column_errors_witness :
    overlap Eone Psing Zcex JnoApn = .error (.keyError "APN") ∧
      ∃ res, overlap Eone Psing ZnoZoning Jsing = .ok res :=
  ⟨(C7_amended_lazy_column_errors Eone Psing Zcex JnoApn).1 (by decide),
    (C7_amended_lazy_column_errors Eone Psing ZnoZoning Jsing).2.2.2.2.2.2.2
      (by decide) (by decide) (by decide) (by decide)⟩

end FnOverlap
